import Mathlib

/-!
# Verification of the Pollard–Strassen factoring pipeline

Shallow embedding of `src/pollard_strassen.py` (and the import surface of
`src/main.py`).  Arbitrary-precision Python integers are embedded as `Nat`;
FLINT's `fmpz_mod` / `fmpz_mod_poly` values are embedded as `ZMod N` and
little-endian coefficient lists over `ZMod N`.  `math.isqrt` is embedded by a
fuel-based Newton iteration (`isqrt`) proved equal to `Nat.sqrt`; the fuel is
only a termination device, the iteration is the same one Python and Batteries
use.  Optional arguments are `Option Nat`; Python truthiness (`if B:`) is
modelled by testing the payload against `0` exactly where the source does.
-/

/-! ## Integer square root (`math.isqrt`) -/

/-- Newton iteration for the integer square root, with explicit fuel.
One step maps `guess` to `(guess + n / guess) / 2` and stops as soon as the
guess no longer decreases; this is the same iteration as `Nat.sqrt.iter`. -/
def sqrtIter (n : Nat) : Nat → Nat → Nat
  | 0, guess => guess
  | fuel+1, guess =>
    let next := (guess + n / guess) / 2
    if next < guess then sqrtIter n fuel next else guess

/-- Embedding of Python `math.isqrt`: exact integer square root. -/
def isqrt (n : Nat) : Nat := if n ≤ 1 then n else sqrtIter n (n / 2) (n / 2)

/-- Embedding of Python `int.bit_length`, with explicit fuel
(`bit_length(0) = 0`, otherwise the number of binary digits). -/
def bitLenAux : Nat → Nat → Nat
  | 0, _ => 0
  | fuel+1, n => if n = 0 then 0 else bitLenAux fuel (n / 2) + 1

/-- Embedding of Python `n.bit_length()` as `bitLen n`. -/
def bitLen (n : Nat) : Nat := bitLenAux n n

/-! ## Step-size selection (`pollard_strassen`, lines 63–107) -/

/-- Source lines 66–69: `sqrt_B = math.isqrt(B); if sqrt_B * sqrt_B < B: sqrt_B += 1`.
This computes the ceiling of the real square root. -/
def ceilSqrt (b : Nat) : Nat :=
  let s := isqrt b
  if s * s < b then s + 1 else s

/-- Source lines 74–78: the default step size `L = floor(N^(1/4)) + 1`,
computed by applying the exact integer square root twice. -/
def defaultL (N : Nat) : Nat := isqrt (isqrt N) + 1

/-- Source lines 64–79: the pre-clamp step size.  Python's `if B:` treats a
bound of `0` like an absent bound, which the embedding reproduces. -/
def initialL (N : Nat) (B : Option Nat) : Nat :=
  match B with
  | some b => if b = 0 then defaultL N else ceilSqrt b
  | none => defaultL N

/-- Source line 86: `FIXED_OVERHEAD = 25 * 1024 * 1024`. -/
def FIXED_OVERHEAD : Nat := 25 * 1024 * 1024

/-- Source lines 88–97: the memory-implied cap on `L`.  When the budget does
not even cover the fixed overhead the code falls back to the floor `1000`;
otherwise it divides the remaining bytes by the per-leaf cost
`8 * (256 + 4 * (bit_length(N) // 8))`. -/
def memLimit (N M : Nat) : Nat :=
  if M ≤ FIXED_OVERHEAD then 1000
  else (M - FIXED_OVERHEAD) / ((256 + 4 * (bitLen N / 8)) * 8)

/-- Source lines 63–107: the final step size.  Python's `if max_memory:`
treats a budget of `0` like an absent budget, which the embedding
reproduces. -/
def stepSize (N : Nat) (B M : Option Nat) : Nat :=
  let L := initialL N B
  match M with
  | some m =>
    if m = 0 then L
    else
      let lim := memLimit N m
      if lim < L then lim else L
  | none => L

/-! ## Modular polynomial arithmetic (the FLINT `fmpz_mod_poly` engine)

Polynomials are little-endian coefficient lists.  All polynomials built by
the program are monic products of the monic linear leaves `x + i`, on which
this representation agrees with FLINT's normalized one. -/

section PolyOps

variable {R : Type} [CommRing R]

/-- Coefficient-wise polynomial addition (padding with the shorter list). -/
def polyAdd : List R → List R → List R
  | [], q => q
  | p, [] => p
  | a :: p, b :: q => (a + b) :: polyAdd p q

/-- Polynomial multiplication on coefficient lists: the engine's `*` on
`fmpz_mod_poly`.  The zero polynomial is `[]` and annihilates. -/
def polyMul : List R → List R → List R
  | [], _ => []
  | _, [] => []
  | a :: p, b :: q =>
    polyAdd ((b :: q).map fun c => a * c) (0 :: polyMul p (b :: q))

/-- Horner evaluation of a coefficient list: the engine's evaluation of an
`fmpz_mod_poly` at a point. -/
def polyEval (p : List R) (x : R) : R :=
  match p with
  | [] => 0
  | a :: q => a + x * polyEval q x

/-- Source lines 31–49 (`product_tree`), with explicit fuel standing in for
Python's unbounded recursion: split the leaf list at the midpoint, recurse on
both halves, and multiply.  Empty input yields `None` as in the source. -/
def product_treeAux : Nat → List (List R) → Option (List R)
  | _, [] => none
  | _, [p] => some p
  | 0, _ :: _ :: _ => none
  | fuel+1, x :: y :: rest =>
    let l := x :: y :: rest
    let mid := l.length / 2
    match product_treeAux fuel (l.take mid), product_treeAux fuel (l.drop mid) with
    | some a, some b => some (polyMul a b)
    | _, _ => none

/-- Embedding `product_tree leaves` of the source's `product_tree(leaves)`; the
fuel `leaves.length` always suffices (each recursive call strictly shortens
the list). -/
def product_tree (leaves : List (List R)) : Option (List R) :=
  product_treeAux leaves.length leaves

/-- The naive left-to-right product of a list of polynomials, used as the
specification that the balanced tree must agree with. -/
def naiveProd : List (List R) → List R
  | [] => []
  | p :: rest => rest.foldl polyMul p

end PolyOps

/-! ## The factoring pipeline (`pollard_strassen`, lines 51–212) -/

/-- Source lines 145–146: the leaves `ctx([i, 1])`, i.e. `x + i`,
for `i = 1 .. L`. -/
def leavesFor (N L : Nat) : List (List (ZMod N)) :=
  (List.range' 1 L).map fun i => [((i : Nat) : ZMod N), 1]

/-- Source lines 155–157: the evaluation points `k * L` for `k = 0 .. L-1`. -/
def pointsFor (L : Nat) : List Nat :=
  (List.range L).map fun k => k * L

/-- Source lines 148–160: the residue vector `values`, one residue per
evaluation point (`multipoint_evaluate` applied to the tree root).  If the
tree returned `None` (empty leaf list) there are no residues. -/
def valuesVec (N L : Nat) : List (ZMod N) :=
  match product_tree (leavesFor N L) with
  | none => []
  | some poly => (pointsFor L).map fun x => polyEval poly ((x : Nat) : ZMod N)

/-- Source lines 165–176: multiply all residues in the mod-`N` domain
(`1` for an empty vector) and lift the result to an integer in `[0, N)`. -/
def accProd (N : Nat) (values : List (ZMod N)) : Nat :=
  match values with
  | [] => 1
  | v :: rest => (rest.foldl (fun a b => a * b) v).val

/-- The lifted accumulated product `int(prod_mod)` of the run with step
size `L`. -/
def accumulatedOf (N L : Nat) : Nat := accProd N (valuesVec N L)

/-- Source lines 203–209: the linear scan of interval `k`, testing
`gcd(k*L + j, N)` for each `j` drawn from the list (called on
`range(1, L+1)`) and returning the first gcd strictly between 1 and `N`. -/
def scanInterval (N startVal : Nat) : List Nat → Option Nat
  | [] => none
  | j :: js =>
    let g := Nat.gcd (startVal + j) N
    if 1 < g ∧ g < N then some g else scanInterval N startVal js

/-- Source lines 190–210: the backtracking loop over the enumerated residue
vector, with `k` the index of the entry at the head of the list.  A gcd
strictly between 1 and `N` is returned immediately; a gcd of `0` or `N`
triggers the linear scan of interval `k`; otherwise (gcd 1) the loop moves
on.  Exhaustion yields `None`. -/
def backtrack (N L : Nat) : List Nat → Nat → Option Nat
  | [], _ => none
  | v :: rest, k =>
    let gi := Nat.gcd v N
    if 1 < gi ∧ gi < N then some gi
    else if gi = N ∨ gi = 0 then
      match scanInterval N (k * L) (List.range' 1 L) with
      | some g => some g
      | none => backtrack N L rest (k + 1)
    else backtrack N L rest (k + 1)

/-- Source lines 51–212: the whole pipeline.  `ctxOk` models the outcome of
the external engine call `fmpz_mod_poly_ctx(N_val)` inside the `try` block:
the code catches any exception from it and returns `None` (lines 117–122).
A `None` from `product_tree` (impossible for `L ≥ 1`) makes the Python crash
on `poly.degree()`; the embedding returns `None` there. -/
def pollard_strassen (ctxOk : Bool) (N : Nat) (B M : Option Nat) : Option Nat :=
  if N ≤ 1000 then
    (List.range' 2 (N - 1)).find? fun i => N % i == 0
  else if ctxOk = false then none
  else if product_tree (leavesFor N (stepSize N B M)) = none then none
  else if 1 < Nat.gcd (accumulatedOf N (stepSize N B M)) N ∧
          Nat.gcd (accumulatedOf N (stepSize N B M)) N < N then
    some (Nat.gcd (accumulatedOf N (stepSize N B M)) N)
  else if Nat.gcd (accumulatedOf N (stepSize N B M)) N = N then
    backtrack N (stepSize N B M) ((valuesVec N (stepSize N B M)).map ZMod.val) 0
  else none

/-! ## The import surface of `src/main.py` -/

/-- The names bound at top level in the module `pollard_strassen`
(`src/pollard_strassen.py`): the five imported modules, the two names
imported from `flint` on line 6, and its three function definitions.  No
other top-level binding occurs in the file. -/
def pollardStrassenModuleNames : List String :=
  ["sys", "math", "argparse", "resource", "psutil",
   "fmpz_mod_poly_ctx", "fmpz",
   "parse_memory_limit", "product_tree", "pollard_strassen"]

/-- The names `src/main.py` line 6 imports from the module
`pollard_strassen`. -/
def mainRequiredImports : List String :=
  ["pollard_strassen", "get_memory_cost_params"]

/-- Modelled from the spec: Python's `from m import a, b` statement, which
succeeds iff every requested name is bound in the module `m`; on failure the
importing script raises `ImportError` before any later statement runs. -/
def mainImportSucceeds : Bool :=
  mainRequiredImports.all fun n => pollardStrassenModuleNames.contains n

/-- Specification-side description of the degenerate-case extractor, worded
as the spec words it: walk the residue vector in ascending index order `k`;
return `gcd(v, N)` at the first index where it lies strictly between 1 and
`N`; where it is 0 or `N`, scan the candidates `k*L + j`, `j = 1 .. L`, in
order and return the first gcd strictly between 1 and `N`; if neither any
index nor any scanned candidate yields such a value, return nothing. -/
def extractorSpec (N L : Nat) (values : List Nat) : Option Nat :=
  values.enum.findSome? fun kv =>
    let gi := Nat.gcd kv.2 N
    if 1 < gi ∧ gi < N then some gi
    else if gi = 0 ∨ gi = N then
      (List.range' 1 L).findSome? fun j =>
        let g := Nat.gcd (kv.1 * L + j) N
        if 1 < g ∧ g < N then some g else none
    else none

/-- Proof-side abstraction of a coefficient list as a `Polynomial`.  Two lists
of the same length with the same abstraction are equal, which turns ring
identities of `Polynomial` into identities of the engine's representation. -/
noncomputable def toPoly {R : Type} [CommRing R] : List R → Polynomial R
  | [] => 0
  | a :: l => Polynomial.C a + Polynomial.X * toPoly l

/-! ## Correctness of the Newton integer square root -/

theorem sqrtIter_eq_iter (n : Nat) :
    ∀ fuel guess, guess ≤ fuel → sqrtIter n fuel guess = Nat.sqrt.iter n guess := by
  intro fuel
  induction fuel with
  | zero =>
    intro guess h
    interval_cases guess
    rw [sqrtIter, Nat.sqrt.iter]
    simp
  | succ f ih =>
    intro guess h
    rw [sqrtIter, Nat.sqrt.iter]
    by_cases hlt : (guess + n / guess) / 2 < guess
    · simp only [hlt, if_true, dif_pos hlt]
      exact ih _ (by omega)
    · simp [hlt]

/-- The fuel-based Newton iteration computes exactly `Nat.sqrt`. -/
theorem isqrt_eq_sqrt (n : Nat) : isqrt n = Nat.sqrt n := by
  unfold isqrt Nat.sqrt
  by_cases h : n ≤ 1
  · simp [h]
  · simp only [h, if_false]
    exact sqrtIter_eq_iter n _ _ le_rfl

/-! ## Basic lemmas about the polynomial engine -/

section PolyLemmas

variable {R : Type} [CommRing R]

@[simp] theorem polyEval_nil (x : R) : polyEval ([] : List R) x = 0 := rfl

@[simp] theorem polyEval_cons (a : R) (q : List R) (x : R) :
    polyEval (a :: q) x = a + x * polyEval q x := rfl

@[simp] theorem polyAdd_nil_left (q : List R) : polyAdd ([] : List R) q = q := by
  cases q <;> rfl

@[simp] theorem polyAdd_nil_right (p : List R) : polyAdd p ([] : List R) = p := by
  cases p <;> rfl

@[simp] theorem polyAdd_cons_cons (a b : R) (p q : List R) :
    polyAdd (a :: p) (b :: q) = (a + b) :: polyAdd p q := rfl

@[simp] theorem polyMul_nil_left (q : List R) : polyMul ([] : List R) q = [] := by
  cases q <;> rfl

@[simp] theorem polyMul_nil_right (p : List R) : polyMul p ([] : List R) = [] := by
  cases p <;> rfl

theorem polyMul_cons_cons (a b : R) (p q : List R) :
    polyMul (a :: p) (b :: q) =
      polyAdd ((b :: q).map fun c => a * c) (0 :: polyMul p (b :: q)) := rfl

theorem polyEval_polyAdd (p : List R) :
    ∀ q (x : R), polyEval (polyAdd p q) x = polyEval p x + polyEval q x := by
  induction p with
  | nil => intro q x; simp
  | cons a p ih =>
    intro q x
    cases q with
    | nil => simp
    | cons b q => simp [ih]; ring

theorem polyEval_map_mul (a : R) (q : List R) (x : R) :
    polyEval (q.map fun c => a * c) x = a * polyEval q x := by
  induction q with
  | nil => simp
  | cons b q ih => simp [ih]; ring

theorem polyEval_polyMul (p : List R) :
    ∀ q (x : R), polyEval (polyMul p q) x = polyEval p x * polyEval q x := by
  induction p with
  | nil => intro q x; simp
  | cons a p ih =>
    intro q x
    cases q with
    | nil => simp
    | cons b q =>
      rw [polyMul_cons_cons, polyEval_polyAdd, polyEval_map_mul, polyEval_cons,
        polyEval_cons, polyEval_cons, ih]
      simp only [polyEval_cons]
      ring

theorem product_treeAux_cons2 (fuel : Nat) (x y : List R) (rest : List (List R)) :
    product_treeAux (fuel+1) (x :: y :: rest) =
      match product_treeAux fuel ((x :: y :: rest).take ((x :: y :: rest).length / 2)),
            product_treeAux fuel ((x :: y :: rest).drop ((x :: y :: rest).length / 2)) with
      | some a, some b => some (polyMul a b)
      | _, _ => none := rfl

theorem product_treeAux_isSome :
    ∀ (fuel : Nat) (l : List (List R)), l.length ≤ fuel → l ≠ [] →
      ∃ r, product_treeAux fuel l = some r := by
  intro fuel
  induction fuel with
  | zero =>
    intro l hlen hne
    cases l with
    | nil => exact absurd rfl hne
    | cons p t => simp at hlen
  | succ f ih =>
    intro l hlen hne
    match l with
    | [] => exact absurd rfl hne
    | [p] => exact ⟨p, rfl⟩
    | x :: y :: rest =>
      have hlen2 : 2 ≤ (x :: y :: rest).length := by simp
      have hmid1 : 1 ≤ (x :: y :: rest).length / 2 :=
        (Nat.one_le_div_iff (by omega)).mpr hlen2
      have hmidlt : (x :: y :: rest).length / 2 < (x :: y :: rest).length :=
        Nat.div_lt_self (by omega) (by omega)
      obtain ⟨a, ha⟩ := ih ((x :: y :: rest).take ((x :: y :: rest).length / 2))
        (by rw [List.length_take]; omega)
        (by
          intro hcon
          have hc := congrArg List.length hcon
          rw [List.length_take] at hc
          simp only [List.length_nil] at hc
          omega)
      obtain ⟨b, hb⟩ := ih ((x :: y :: rest).drop ((x :: y :: rest).length / 2))
        (by rw [List.length_drop]; omega)
        (by
          intro hcon
          have hc := congrArg List.length hcon
          rw [List.length_drop] at hc
          simp only [List.length_nil] at hc
          omega)
      refine ⟨polyMul a b, ?_⟩
      rw [product_treeAux_cons2, ha, hb]

theorem product_tree_isSome (l : List (List R)) (hne : l ≠ []) :
    ∃ r, product_tree l = some r :=
  product_treeAux_isSome l.length l le_rfl hne

theorem product_treeAux_eval :
    ∀ (fuel : Nat) (l : List (List R)) (r : List R), l.length ≤ fuel →
      product_treeAux fuel l = some r →
      ∀ x : R, polyEval r x = (l.map fun p => polyEval p x).prod := by
  intro fuel
  induction fuel with
  | zero =>
    intro l r hlen hsome x
    cases l with
    | nil => simp [product_treeAux] at hsome
    | cons p t => simp at hlen
  | succ f ih =>
    intro l r hlen hsome x
    match l with
    | [] => simp [product_treeAux] at hsome
    | [p] =>
      simp only [product_treeAux, Option.some.injEq] at hsome
      subst hsome
      simp
    | a :: b :: rest =>
      have hlen2 : 2 ≤ (a :: b :: rest).length := by simp
      have hmid1 : 1 ≤ (a :: b :: rest).length / 2 :=
        (Nat.one_le_div_iff (by omega)).mpr hlen2
      have hmidlt : (a :: b :: rest).length / 2 < (a :: b :: rest).length :=
        Nat.div_lt_self (by omega) (by omega)
      have hlf : (a :: b :: rest).length ≤ f + 1 := hlen
      obtain ⟨ra, hra⟩ :=
        product_treeAux_isSome f ((a :: b :: rest).take ((a :: b :: rest).length / 2))
          (by rw [List.length_take]; omega)
          (by
            intro hcon
            have hc := congrArg List.length hcon
            rw [List.length_take] at hc
            simp only [List.length_nil] at hc
            omega)
      obtain ⟨rb, hrb⟩ :=
        product_treeAux_isSome f ((a :: b :: rest).drop ((a :: b :: rest).length / 2))
          (by rw [List.length_drop]; omega)
          (by
            intro hcon
            have hc := congrArg List.length hcon
            rw [List.length_drop] at hc
            simp only [List.length_nil] at hc
            omega)
      rw [product_treeAux_cons2, hra, hrb] at hsome
      simp only [Option.some.injEq] at hsome
      subst hsome
      rw [polyEval_polyMul]
      rw [ih _ _ (by rw [List.length_take]; omega) hra x,
          ih _ _ (by rw [List.length_drop]; omega) hrb x]
      rw [← List.prod_append, ← List.map_append, List.take_append_drop]

theorem product_tree_eval (l : List (List R)) (r : List R)
    (h : product_tree l = some r) (x : R) :
    polyEval r x = (l.map fun p => polyEval p x).prod :=
  product_treeAux_eval l.length l r le_rfl h x

end PolyLemmas

/-! ## The list representation versus `Polynomial R` -/

section ToPolyLemmas

open Polynomial

variable {R : Type} [CommRing R]

@[simp] theorem toPoly_nil : toPoly ([] : List R) = 0 := rfl

@[simp] theorem toPoly_cons (a : R) (l : List R) :
    toPoly (a :: l) = C a + X * toPoly l := rfl

theorem toPoly_coeff (l : List R) : ∀ n, (toPoly l).coeff n = l.getD n 0 := by
  induction l with
  | nil => intro n; simp
  | cons a l ih =>
    intro n
    cases n with
    | zero =>
      rw [toPoly_cons, coeff_add, coeff_C_zero, X_mul, coeff_mul_X_zero, add_zero]
      rfl
    | succ m =>
      rw [toPoly_cons, coeff_add, coeff_C, if_neg (by omega), coeff_X_mul, zero_add, ih]
      rfl

theorem toPoly_inj {l₁ l₂ : List R} (hlen : l₁.length = l₂.length)
    (h : toPoly l₁ = toPoly l₂) : l₁ = l₂ := by
  apply List.ext_getElem hlen
  intro n h₁ h₂
  have hc := congrArg (fun p => Polynomial.coeff p n) h
  simp only [toPoly_coeff] at hc
  rwa [List.getD_eq_getElem?_getD, List.getD_eq_getElem?_getD,
    List.getElem?_eq_getElem h₁, List.getElem?_eq_getElem h₂, Option.getD_some,
    Option.getD_some] at hc

theorem toPoly_polyAdd (p : List R) : ∀ q, toPoly (polyAdd p q) = toPoly p + toPoly q := by
  induction p with
  | nil => intro q; simp
  | cons a p ih =>
    intro q
    cases q with
    | nil => simp
    | cons b q =>
      rw [polyAdd_cons_cons, toPoly_cons, ih, toPoly_cons, toPoly_cons, map_add]
      ring

theorem toPoly_map_mul (a : R) (q : List R) :
    toPoly (q.map fun c => a * c) = C a * toPoly q := by
  induction q with
  | nil => simp
  | cons b q ih =>
    rw [List.map_cons, toPoly_cons, ih, toPoly_cons, map_mul]
    ring

theorem toPoly_polyMul (p : List R) : ∀ q, toPoly (polyMul p q) = toPoly p * toPoly q := by
  induction p with
  | nil => intro q; simp
  | cons a p ih =>
    intro q
    cases q with
    | nil => simp
    | cons b q =>
      rw [polyMul_cons_cons, toPoly_polyAdd, toPoly_map_mul]
      simp only [toPoly_cons, map_zero, zero_add]
      rw [ih]
      simp only [toPoly_cons]
      ring

@[simp] theorem len_polyAdd (p : List R) : ∀ q, (polyAdd p q).length = max p.length q.length := by
  induction p with
  | nil => intro q; simp
  | cons a p ih =>
    intro q
    cases q with
    | nil => simp
    | cons b q => simp [ih]; omega

theorem len_polyMul (p : List R) : ∀ q, p ≠ [] → q ≠ [] →
    (polyMul p q).length = p.length + q.length - 1 := by
  induction p with
  | nil => intro q h; exact absurd rfl h
  | cons a p ih =>
    intro q _ hq
    cases q with
    | nil => exact absurd rfl hq
    | cons b q =>
      cases p with
      | nil => simp [polyMul_cons_cons]
      | cons c p =>
        rw [polyMul_cons_cons, len_polyAdd]
        rw [List.length_cons, ih (b :: q) (by simp) (by simp)]
        simp
        omega

theorem polyMul_ne_nil {p q : List R} (hp : p ≠ []) (hq : q ≠ []) : polyMul p q ≠ [] := by
  intro hcon
  have hc := congrArg List.length hcon
  rw [len_polyMul p q hp hq, List.length_nil] at hc
  have h1 : 1 ≤ p.length := List.length_pos.mpr hp
  have h2 : 1 ≤ q.length := List.length_pos.mpr hq
  omega

theorem polyMul_assoc (p q r : List R) :
    polyMul (polyMul p q) r = polyMul p (polyMul q r) := by
  cases p with
  | nil => simp
  | cons a p =>
    cases q with
    | nil => simp
    | cons b q =>
      cases r with
      | nil => simp
      | cons c r =>
        have hpq : polyMul (a :: p) (b :: q) ≠ [] := polyMul_ne_nil (by simp) (by simp)
        have hqr : polyMul (b :: q) (c :: r) ≠ [] := polyMul_ne_nil (by simp) (by simp)
        apply toPoly_inj
        · rw [len_polyMul _ _ hpq (by simp), len_polyMul _ _ (List.cons_ne_nil a p) hqr,
            len_polyMul _ _ (by simp) (by simp), len_polyMul _ _ (by simp) (by simp)]
          simp
          omega
        · rw [toPoly_polyMul, toPoly_polyMul, toPoly_polyMul, toPoly_polyMul, mul_assoc]

end ToPolyLemmas

/-! ## The balanced tree computes the naive product -/

section TreeNaive

variable {R : Type} [CommRing R]

theorem foldl_polyMul_eq :
    ∀ (l : List (List R)), l ≠ [] → ∀ a, l.foldl polyMul a = polyMul a (naiveProd l) := by
  intro l
  induction l with
  | nil => intro h; exact absurd rfl h
  | cons x t ih =>
    intro _ a
    cases t with
    | nil => rfl
    | cons y t2 =>
      show (y :: t2).foldl polyMul (polyMul a x) = polyMul a (naiveProd (x :: y :: t2))
      rw [ih (by simp) (polyMul a x)]
      have hx : naiveProd (x :: y :: t2) = polyMul x (naiveProd (y :: t2)) := by
        show (y :: t2).foldl polyMul x = _
        rw [ih (by simp) x]
      rw [hx, polyMul_assoc]

theorem naiveProd_append (l₁ l₂ : List (List R)) (h₁ : l₁ ≠ []) (h₂ : l₂ ≠ []) :
    naiveProd (l₁ ++ l₂) = polyMul (naiveProd l₁) (naiveProd l₂) := by
  cases l₁ with
  | nil => exact absurd rfl h₁
  | cons x t =>
    show (t ++ l₂).foldl polyMul x = _
    rw [List.foldl_append, foldl_polyMul_eq l₂ h₂]
    rfl

theorem product_treeAux_naive :
    ∀ (fuel : Nat) (l : List (List R)), l.length ≤ fuel → l ≠ [] →
      product_treeAux fuel l = some (naiveProd l) := by
  intro fuel
  induction fuel with
  | zero =>
    intro l hlen hne
    cases l with
    | nil => exact absurd rfl hne
    | cons p t => simp at hlen
  | succ f ih =>
    intro l hlen hne
    match l with
    | [] => exact absurd rfl hne
    | [p] => rfl
    | x :: y :: rest =>
      have hlen2 : 2 ≤ (x :: y :: rest).length := by simp
      have hmid1 : 1 ≤ (x :: y :: rest).length / 2 :=
        (Nat.one_le_div_iff (by omega)).mpr hlen2
      have hmidlt : (x :: y :: rest).length / 2 < (x :: y :: rest).length :=
        Nat.div_lt_self (by omega) (by omega)
      have htne : (x :: y :: rest).take ((x :: y :: rest).length / 2) ≠ [] := by
        intro hcon
        have hc := congrArg List.length hcon
        rw [List.length_take] at hc
        simp only [List.length_nil] at hc
        omega
      have hdne : (x :: y :: rest).drop ((x :: y :: rest).length / 2) ≠ [] := by
        intro hcon
        have hc := congrArg List.length hcon
        rw [List.length_drop] at hc
        simp only [List.length_nil] at hc
        omega
      rw [product_treeAux_cons2,
        ih _ (by rw [List.length_take]; omega) htne,
        ih _ (by rw [List.length_drop]; omega) hdne]
      show some (polyMul (naiveProd _) (naiveProd _)) = _
      rw [← naiveProd_append _ _ htne hdne, List.take_append_drop]

/-- The balanced product tree agrees with the naive left-to-right product on
every nonempty list of leaves. -/
theorem product_tree_eq_naiveProd (l : List (List R)) (hne : l ≠ []) :
    product_tree l = some (naiveProd l) :=
  product_treeAux_naive l.length l le_rfl hne

theorem naiveProd_ne_nil (l : List (List R)) (hne : l ≠ []) (hq : ∀ q ∈ l, q ≠ []) :
    naiveProd l ≠ [] := by
  cases l with
  | nil => exact absurd rfl hne
  | cons x t =>
    induction t generalizing x with
    | nil => exact hq x (by simp)
    | cons y t2 ih =>
      show (y :: t2).foldl polyMul x ≠ []
      show t2.foldl polyMul (polyMul x y) ≠ []
      exact ih (polyMul x y)
        (by simp)
        (by
          intro q hmem
          rw [List.mem_cons] at hmem
          rcases hmem with hmem | hmem
          · subst hmem
            exact polyMul_ne_nil (hq x (by simp)) (hq y (by simp))
          · exact hq q (by simp [hmem]))

theorem len_naiveProd :
    ∀ (l : List (List R)), l ≠ [] → (∀ q ∈ l, q ≠ []) →
      (naiveProd l).length + l.length = (l.map List.length).sum + 1 := by
  intro l
  cases l with
  | nil => intro h; exact absurd rfl h
  | cons x t =>
    induction t generalizing x with
    | nil => intro _ _; simp [naiveProd]
    | cons y t2 ih =>
      intro _ hq
      have hx : x ≠ [] := hq x (by simp)
      have hy : y ≠ [] := hq y (by simp)
      have hxy : polyMul x y ≠ [] := polyMul_ne_nil hx hy
      have step : naiveProd (x :: y :: t2) = naiveProd (polyMul x y :: t2) := rfl
      have hq2 : ∀ q ∈ polyMul x y :: t2, q ≠ [] := by
        intro q hmem
        rw [List.mem_cons] at hmem
        rcases hmem with hmem | hmem
        · subst hmem; exact hxy
        · exact hq q (by simp [hmem])
      have ihres := ih (polyMul x y) (by simp) hq2
      rw [step]
      have hlm : (polyMul x y).length = x.length + y.length - 1 := len_polyMul x y hx hy
      have h1 : 1 ≤ x.length := List.length_pos.mpr hx
      have h2 : 1 ≤ y.length := List.length_pos.mpr hy
      simp only [List.map_cons, List.sum_cons, List.length_cons] at ihres ⊢
      omega

end TreeNaive

/-! ## The residue vector and the accumulated product, in integer form -/

theorem foldl_mul_eq_prod {M : Type} [CommMonoid M] :
    ∀ (l : List M) (a : M), l.foldl (fun x y => x * y) a = a * l.prod := by
  intro l
  induction l with
  | nil => intro a; simp
  | cons b t ih =>
    intro a
    simp only [List.foldl_cons, ih, List.prod_cons]
    rw [mul_assoc]

theorem leavesFor_length (N L : Nat) : (leavesFor N L).length = L := by
  rw [leavesFor]
  simp

theorem leavesFor_ne_nil (N L : Nat) (hL : 1 ≤ L) : leavesFor N L ≠ [] := by
  intro h
  have hc := congrArg List.length h
  rw [leavesFor_length] at hc
  simp at hc
  omega

theorem leaf_eval (N : Nat) (i : Nat) (x : ZMod N) :
    polyEval [(i : ZMod N), 1] x = (i : ZMod N) + x := by
  simp [polyEval]

theorem eval_root_natCast {N L : Nat} (r : List (ZMod N))
    (h : product_tree (leavesFor N L) = some r) (x : Nat) :
    polyEval r ((x : Nat) : ZMod N)
      = ((((List.range' 1 L).map fun i => x + i).prod : Nat) : ZMod N) := by
  rw [product_tree_eval _ _ h]
  rw [leavesFor, List.map_map, Nat.cast_list_prod, List.map_map]
  congr 1
  apply List.map_congr_left
  intro i hi
  show polyEval [((i : Nat) : ZMod N), 1] ((x : Nat) : ZMod N) = _
  rw [leaf_eval]
  simp only [Function.comp_apply]
  push_cast
  ring

theorem valuesVec_map (N L : Nat) (r : List (ZMod N))
    (h : product_tree (leavesFor N L) = some r) :
    valuesVec N L = (List.range L).map fun k =>
      ((((List.range' 1 L).map fun i => k * L + i).prod : Nat) : ZMod N) := by
  conv_lhs => rw [valuesVec, h]
  show (pointsFor L).map _ = _
  rw [pointsFor, List.map_map]
  apply List.map_congr_left
  intro k hk
  exact eval_root_natCast r h (k * L)

theorem valuesVec_length (N L : Nat) (r : List (ZMod N))
    (h : product_tree (leavesFor N L) = some r) : (valuesVec N L).length = L := by
  rw [valuesVec_map N L r h]
  simp

theorem accProd_eq_val_prod (N : Nat) (values : List (ZMod N)) (hne : values ≠ []) :
    accProd N values = values.prod.val := by
  cases values with
  | nil => exact absurd rfl hne
  | cons v rest =>
    show (rest.foldl (fun a b => a * b) v).val = _
    rw [foldl_mul_eq_prod, List.prod_cons]

theorem accumulatedOf_mod (N L : Nat) [NeZero N] (hL : 1 ≤ L)
    (r : List (ZMod N)) (h : product_tree (leavesFor N L) = some r) :
    accumulatedOf N L =
      (((List.range L).map fun k =>
        ((List.range' 1 L).map fun i => k * L + i).prod).prod) % N := by
  have hvne : valuesVec N L ≠ [] := by
    intro hcon
    have hc := congrArg List.length hcon
    rw [valuesVec_length N L r h] at hc
    simp at hc
    omega
  rw [accumulatedOf, accProd_eq_val_prod N _ hvne, valuesVec_map N L r h]
  have hmm : ((List.range L).map fun k =>
        ((((List.range' 1 L).map fun i => k * L + i).prod : Nat) : ZMod N))
      = (((List.range L).map fun k =>
          ((List.range' 1 L).map fun i => k * L + i).prod).map Nat.cast) := by
    rw [List.map_map]
    rfl
  rw [hmm, ← Nat.cast_list_prod, ZMod.val_natCast]

/-! ## Soundness and completeness of the backtracking search -/

theorem scanInterval_nil (N s : Nat) : scanInterval N s [] = none := rfl

theorem scanInterval_cons (N s j : Nat) (js : List Nat) :
    scanInterval N s (j :: js) =
      if 1 < Nat.gcd (s + j) N ∧ Nat.gcd (s + j) N < N then some (Nat.gcd (s + j) N)
      else scanInterval N s js := rfl

theorem scanInterval_sound (N s : Nat) :
    ∀ (l : List Nat) (g : Nat), scanInterval N s l = some g →
      1 < g ∧ g < N ∧ g ∣ N := by
  intro l
  induction l with
  | nil => intro g hg; simp [scanInterval_nil] at hg
  | cons j js ih =>
    intro g hg
    rw [scanInterval_cons] at hg
    by_cases hcond : 1 < Nat.gcd (s + j) N ∧ Nat.gcd (s + j) N < N
    · rw [if_pos hcond] at hg
      have hg2 : Nat.gcd (s + j) N = g := Option.some.inj hg
      subst hg2
      exact ⟨hcond.1, hcond.2, Nat.gcd_dvd_right _ _⟩
    · rw [if_neg hcond] at hg
      exact ih g hg

theorem scanInterval_complete (N s : Nat) :
    ∀ (l : List Nat) (j : Nat), j ∈ l →
      1 < Nat.gcd (s + j) N → Nat.gcd (s + j) N < N →
      scanInterval N s l ≠ none := by
  intro l
  induction l with
  | nil => intro j hj; simp at hj
  | cons a js ih =>
    intro j hj h1 h2
    rw [List.mem_cons] at hj
    rw [scanInterval_cons]
    by_cases hcond : 1 < Nat.gcd (s + a) N ∧ Nat.gcd (s + a) N < N
    · rw [if_pos hcond]
      simp
    · rw [if_neg hcond]
      rcases hj with hj | hj
      · subst hj
        exact absurd ⟨h1, h2⟩ hcond
      · exact ih j hj h1 h2

theorem backtrack_nil (N L k : Nat) : backtrack N L [] k = none := rfl

theorem backtrack_cons (N L v k : Nat) (rest : List Nat) :
    backtrack N L (v :: rest) k =
      if 1 < Nat.gcd v N ∧ Nat.gcd v N < N then some (Nat.gcd v N)
      else if Nat.gcd v N = N ∨ Nat.gcd v N = 0 then
        match scanInterval N (k * L) (List.range' 1 L) with
        | some g => some g
        | none => backtrack N L rest (k + 1)
      else backtrack N L rest (k + 1) := rfl

theorem backtrack_sound (N L : Nat) :
    ∀ (vs : List Nat) (k g : Nat), backtrack N L vs k = some g →
      1 < g ∧ g < N ∧ g ∣ N := by
  intro vs
  induction vs with
  | nil => intro k g hg; simp [backtrack_nil] at hg
  | cons v rest ih =>
    intro k g hg
    rw [backtrack_cons] at hg
    by_cases h1 : 1 < Nat.gcd v N ∧ Nat.gcd v N < N
    · rw [if_pos h1] at hg
      have hg2 : Nat.gcd v N = g := Option.some.inj hg
      subst hg2
      exact ⟨h1.1, h1.2, Nat.gcd_dvd_right _ _⟩
    · rw [if_neg h1] at hg
      by_cases h2 : Nat.gcd v N = N ∨ Nat.gcd v N = 0
      · rw [if_pos h2] at hg
        cases hscan : scanInterval N (k * L) (List.range' 1 L) with
        | some gc =>
          rw [hscan] at hg
          have hg2 : gc = g := Option.some.inj hg
          subst hg2
          exact scanInterval_sound N (k * L) _ gc hscan
        | none =>
          rw [hscan] at hg
          exact ih (k + 1) g hg
      · rw [if_neg h2] at hg
        exact ih (k + 1) g hg

theorem backtrack_complete (N L p : Nat) (hN : 1 < N) (hpd : p ∣ N)
    (hp1 : 1 < p) (hpN : p < N) :
    ∀ (vs : List Nat) (k₀ : Nat),
      (∃ i, ∃ hi : i < vs.length, p ∣ vs.get ⟨i, hi⟩ ∧
        ∃ j ∈ List.range' 1 L, (k₀ + i) * L + j = p) →
      backtrack N L vs k₀ ≠ none := by
  intro vs
  induction vs with
  | nil =>
    intro k₀ hwit
    obtain ⟨i, hi, _⟩ := hwit
    simp at hi
  | cons v rest ih =>
    intro k₀ hwit
    obtain ⟨i, hi, hdvd, j, hjmem, hjeq⟩ := hwit
    rw [backtrack_cons]
    cases i with
    | zero =>
      have hv : p ∣ v := hdvd
      have hgipos : Nat.gcd v N ≠ 0 := by
        intro hcon
        rw [Nat.gcd_eq_zero_iff] at hcon
        omega
      have hpgi : p ∣ Nat.gcd v N := Nat.dvd_gcd hv hpd
      have hgi1 : 1 < Nat.gcd v N :=
        lt_of_lt_of_le hp1 (Nat.le_of_dvd (Nat.pos_of_ne_zero hgipos) hpgi)
      by_cases hlt : Nat.gcd v N < N
      · rw [if_pos ⟨hgi1, hlt⟩]
        simp
      · have hgile : Nat.gcd v N ≤ N := Nat.le_of_dvd (by omega) (Nat.gcd_dvd_right _ _)
        have hgiN : Nat.gcd v N = N := by omega
        rw [if_neg (by tauto), if_pos (Or.inl hgiN)]
        have hcand : k₀ * L + j = p := by
          rw [Nat.add_zero] at hjeq
          exact hjeq
        have hscanne : scanInterval N (k₀ * L) (List.range' 1 L) ≠ none := by
          apply scanInterval_complete N (k₀ * L) _ j hjmem
          · rw [hcand, Nat.gcd_eq_left hpd]
            exact hp1
          · rw [hcand, Nat.gcd_eq_left hpd]
            exact hpN
        obtain ⟨gc, hgc⟩ := Option.ne_none_iff_exists'.mp hscanne
        rw [hgc]
        simp
    | succ i2 =>
      have hi2 : i2 < rest.length := by simpa using hi
      have hwit2 : ∃ i, ∃ hi : i < rest.length, p ∣ rest.get ⟨i, hi⟩ ∧
          ∃ j ∈ List.range' 1 L, (k₀ + 1 + i) * L + j = p := by
        refine ⟨i2, hi2, hdvd, j, hjmem, ?_⟩
        have harith : (k₀ + 1 + i2) = (k₀ + (i2 + 1)) := by omega
        rw [harith]
        exact hjeq
      by_cases h1 : 1 < Nat.gcd v N ∧ Nat.gcd v N < N
      · rw [if_pos h1]
        simp
      · rw [if_neg h1]
        by_cases h2 : Nat.gcd v N = N ∨ Nat.gcd v N = 0
        · rw [if_pos h2]
          cases hscan : scanInterval N (k₀ * L) (List.range' 1 L) with
          | some gc => simp
          | none => exact ih (k₀ + 1) hwit2
        · rw [if_neg h2]
          exact ih (k₀ + 1) hwit2

/-! ## First-match trial division and step-size facts -/

theorem find?_range'_min (p : Nat → Bool) :
    ∀ (n s g : Nat), (List.range' s n).find? p = some g →
      ∀ d, s ≤ d → d < g → p d = false := by
  intro n
  induction n with
  | zero => intro s g hg; simp at hg
  | succ m ih =>
    intro s g hg d hsd hdg
    rw [List.range'_succ] at hg
    by_cases hps : p s = true
    · rw [List.find?_cons_of_pos _ hps] at hg
      have hgs : s = g := Option.some.inj hg
      omega
    · have hps2 : ¬ p s = true := hps
      rw [List.find?_cons_of_neg _ hps2] at hg
      by_cases hds : d = s
      · subst hds
        exact Bool.not_eq_true (p d) |>.mp hps
      · exact ih (s + 1) g hg d (by omega) hdg

theorem find?_some_of_mem {p : Nat → Bool} {l : List Nat} {x : Nat}
    (hx : x ∈ l) (hpx : p x = true) : ∃ g, l.find? p = some g := by
  have hs : (l.find? p).isSome := List.find?_isSome.mpr ⟨x, hx, hpx⟩
  exact Option.isSome_iff_exists.mp hs

theorem stepSize_default (N : Nat) : stepSize N none none = defaultL N := rfl

theorem defaultL_eq_sqrt (N : Nat) : defaultL N = Nat.sqrt (Nat.sqrt N) + 1 := by
  rw [defaultL, isqrt_eq_sqrt, isqrt_eq_sqrt]

theorem defaultL_pos (N : Nat) : 1 ≤ defaultL N := by
  rw [defaultL]
  omega

/-- Unfolding of the small-`N` trial-division branch. -/
theorem pollard_strassen_small (c : Bool) (N : Nat) (B M : Option Nat) (h : N ≤ 1000) :
    pollard_strassen c N B M = (List.range' 2 (N - 1)).find? fun i => N % i == 0 := by
  rw [pollard_strassen, if_pos h]

/-- Unfolding of the main pipeline for `N > 1000` with a working context. -/
theorem pollard_strassen_big (N : Nat) (B M : Option Nat) (h : ¬ N ≤ 1000)
    (r : List (ZMod N)) (hr : product_tree (leavesFor N (stepSize N B M)) = some r) :
    pollard_strassen true N B M =
      if 1 < Nat.gcd (accumulatedOf N (stepSize N B M)) N ∧
          Nat.gcd (accumulatedOf N (stepSize N B M)) N < N then
        some (Nat.gcd (accumulatedOf N (stepSize N B M)) N)
      else if Nat.gcd (accumulatedOf N (stepSize N B M)) N = N then
        backtrack N (stepSize N B M) ((valuesVec N (stepSize N B M)).map ZMod.val) 0
      else none := by
  rw [pollard_strassen, if_neg h, if_neg (by simp), if_neg (by rw [hr]; simp)]

/-! ## The backtracking loop matches its specification wording -/

theorem scanInterval_eq_findSome (N s : Nat) :
    ∀ (l : List Nat),
      scanInterval N s l = l.findSome? fun j =>
        if 1 < Nat.gcd (s + j) N ∧ Nat.gcd (s + j) N < N then some (Nat.gcd (s + j) N)
        else none := by
  intro l
  induction l with
  | nil => rfl
  | cons a js ih =>
    rw [scanInterval_cons, List.findSome?_cons]
    by_cases hcond : 1 < Nat.gcd (s + a) N ∧ Nat.gcd (s + a) N < N
    · rw [if_pos hcond, if_pos hcond]
    · rw [if_neg hcond, if_neg hcond, ih]

theorem backtrack_eq_enumFrom (N L : Nat) :
    ∀ (vs : List Nat) (k₀ : Nat),
      backtrack N L vs k₀ = (vs.enumFrom k₀).findSome? fun kv =>
        if 1 < Nat.gcd kv.2 N ∧ Nat.gcd kv.2 N < N then some (Nat.gcd kv.2 N)
        else if Nat.gcd kv.2 N = 0 ∨ Nat.gcd kv.2 N = N then
          (List.range' 1 L).findSome? fun j =>
            if 1 < Nat.gcd (kv.1 * L + j) N ∧ Nat.gcd (kv.1 * L + j) N < N then
              some (Nat.gcd (kv.1 * L + j) N)
            else none
        else none := by
  intro vs
  induction vs with
  | nil => intro k₀; rfl
  | cons v rest ih =>
    intro k₀
    rw [backtrack_cons, List.enumFrom_cons, List.findSome?_cons]
    by_cases h1 : 1 < Nat.gcd v N ∧ Nat.gcd v N < N
    · rw [if_pos h1, if_pos h1]
    · rw [if_neg h1, if_neg h1]
      by_cases h2 : Nat.gcd v N = N ∨ Nat.gcd v N = 0
      · rw [if_pos h2, if_pos (Or.comm.mp h2), ← scanInterval_eq_findSome]
        cases hscan : scanInterval N (k₀ * L) (List.range' 1 L) with
        | some gc => rfl
        | none => exact ih (k₀ + 1)
      · rw [if_neg h2, if_neg (fun hcon => h2 (Or.comm.mp hcon)), ih (k₀ + 1)]

/-- Starting `backtrack` at index 0 gives exactly the spec-worded extractor. -/
theorem backtrack_eq_extractorSpec (N L : Nat) (vs : List Nat) :
    backtrack N L vs 0 = extractorSpec N L vs := by
  rw [backtrack_eq_enumFrom N L vs 0, extractorSpec]
  rfl

/-! ## Locating a small factor in the candidate grid -/

theorem interval_decompose (L p : Nat) (hL : 1 ≤ L) (hp1 : 1 < p) (hpL : p ≤ L * L) :
    ∃ k, k < L ∧ ∃ j ∈ List.range' 1 L, k * L + j = p := by
  refine ⟨(p - 1) / L, ?_, (p - 1) % L + 1, ?_, ?_⟩
  · by_contra hcon
    push_neg at hcon
    have hmul : L * L ≤ L * ((p - 1) / L) := Nat.mul_le_mul_left L hcon
    have hdm : L * ((p - 1) / L) ≤ p - 1 := Nat.mul_div_le (p - 1) L
    omega
  · rw [List.mem_range'_1]
    have hmod : (p - 1) % L < L := Nat.mod_lt _ (by omega)
    omega
  · have hdm : L * ((p - 1) / L) + (p - 1) % L = p - 1 := Nat.div_add_mod (p - 1) L
    have hcomm : (p - 1) / L * L = L * ((p - 1) / L) := Nat.mul_comm _ _
    omega

/-! ## Divisibility of residues and of the accumulated product -/

theorem valuesVec_of_some (N L : Nat) (r : List (ZMod N))
    (hr : product_tree (leavesFor N L) = some r) :
    valuesVec N L = (pointsFor L).map fun x => polyEval r ((x : Nat) : ZMod N) := by
  conv_lhs => rw [valuesVec, hr]

theorem dvd_residue (N L p k j : Nat) [NeZero N] (hpd : p ∣ N) (r : List (ZMod N))
    (hr : product_tree (leavesFor N L) = some r)
    (hjmem : j ∈ List.range' 1 L) (hkj : k * L + j = p) :
    p ∣ (polyEval r ((k * L : Nat) : ZMod N)).val := by
  rw [eval_root_natCast r hr (k * L), ZMod.val_natCast, Nat.dvd_mod_iff hpd]
  exact List.dvd_prod (List.mem_map.mpr ⟨j, hjmem, hkj⟩)

theorem dvd_accumulated (N L p k j : Nat) [NeZero N] (hpd : p ∣ N) (hkL : k < L)
    (r : List (ZMod N)) (hr : product_tree (leavesFor N L) = some r)
    (hjmem : j ∈ List.range' 1 L) (hkj : k * L + j = p) :
    p ∣ accumulatedOf N L := by
  rw [accumulatedOf_mod N L (by omega) r hr, Nat.dvd_mod_iff hpd]
  have h1 : p ∣ ((List.range' 1 L).map fun i => k * L + i).prod :=
    List.dvd_prod (List.mem_map.mpr ⟨j, hjmem, hkj⟩)
  have h2 : ((List.range' 1 L).map fun i => k * L + i).prod ∣
      ((List.range L).map fun k2 =>
        ((List.range' 1 L).map fun i => k2 * L + i).prod).prod :=
    List.dvd_prod (List.mem_map.mpr ⟨k, List.mem_range.mpr hkL, rfl⟩)
  exact dvd_trans h1 h2

theorem residues_get (N L : Nat) (r : List (ZMod N))
    (hr : product_tree (leavesFor N L) = some r) (k : Nat) (hk : k < L) :
    ∃ hk2 : k < ((valuesVec N L).map ZMod.val).length,
      ((valuesVec N L).map ZMod.val).get ⟨k, hk2⟩ =
        (polyEval r ((k * L : Nat) : ZMod N)).val := by
  have hv := valuesVec_of_some N L r hr
  have hlen : ((valuesVec N L).map ZMod.val).length = L := by
    rw [hv, pointsFor]
    simp
  refine ⟨by omega, ?_⟩
  simp only [List.get_eq_getElem, hv, pointsFor, List.getElem_map, List.getElem_range]

/-! ## The pipeline finds a factor whenever one lies in the covered range -/

theorem pipeline_finds (N p : Nat) (hN : 1000 < N) (hp1 : 1 < p) (hpN : p < N)
    (hpd : p ∣ N) (hpL : p ≤ stepSize N none none * stepSize N none none) :
    ∃ g, pollard_strassen true N none none = some g ∧ 1 < g ∧ g < N ∧ N % g = 0 := by
  haveI : NeZero N := ⟨by omega⟩
  have hL1 : 1 ≤ stepSize N none none := by
    rw [stepSize_default]
    exact defaultL_pos N
  obtain ⟨r, hr⟩ := product_tree_isSome (leavesFor N (stepSize N none none))
    (leavesFor_ne_nil N _ hL1)
  obtain ⟨k, hkL, j, hjmem, hkj⟩ := interval_decompose (stepSize N none none) p hL1 hp1 hpL
  have hpacc : p ∣ accumulatedOf N (stepSize N none none) :=
    dvd_accumulated N _ p k j hpd hkL r hr hjmem hkj
  have hgN : Nat.gcd (accumulatedOf N (stepSize N none none)) N ∣ N := Nat.gcd_dvd_right _ _
  have hpg : p ∣ Nat.gcd (accumulatedOf N (stepSize N none none)) N := Nat.dvd_gcd hpacc hpd
  have hgcd0 : Nat.gcd (accumulatedOf N (stepSize N none none)) N ≠ 0 := by
    intro hcon
    rw [Nat.gcd_eq_zero_iff] at hcon
    omega
  have hg1 : 1 < Nat.gcd (accumulatedOf N (stepSize N none none)) N :=
    lt_of_lt_of_le hp1 (Nat.le_of_dvd (Nat.pos_of_ne_zero hgcd0) hpg)
  rw [pollard_strassen_big N none none (by omega) r hr]
  by_cases hlt : Nat.gcd (accumulatedOf N (stepSize N none none)) N < N
  · rw [if_pos ⟨hg1, hlt⟩]
    refine ⟨_, rfl, hg1, hlt, ?_⟩
    exact Nat.dvd_iff_mod_eq_zero.mp hgN
  · have hgle : Nat.gcd (accumulatedOf N (stepSize N none none)) N ≤ N :=
      Nat.le_of_dvd (by omega) hgN
    have hgeq : Nat.gcd (accumulatedOf N (stepSize N none none)) N = N := by omega
    rw [if_neg (by tauto), if_pos hgeq]
    obtain ⟨hk2, hget⟩ := residues_get N _ r hr k hkL
    have hwit : ∃ i, ∃ hi : i < ((valuesVec N (stepSize N none none)).map ZMod.val).length,
        p ∣ ((valuesVec N (stepSize N none none)).map ZMod.val).get ⟨i, hi⟩ ∧
        ∃ j2 ∈ List.range' 1 (stepSize N none none),
          (0 + i) * (stepSize N none none) + j2 = p := by
      refine ⟨k, hk2, ?_, j, hjmem, ?_⟩
      · rw [hget]
        exact dvd_residue N _ p k j hpd r hr hjmem hkj
      · rw [Nat.zero_add]
        exact hkj
    have hne := backtrack_complete N (stepSize N none none) p (by omega) hpd hp1 hpN _ 0 hwit
    obtain ⟨g2, hg2⟩ := Option.ne_none_iff_exists'.mp hne
    obtain ⟨ha, hb, hc⟩ := backtrack_sound N (stepSize N none none) _ 0 g2 hg2
    exact ⟨g2, hg2, ha, hb, Nat.dvd_iff_mod_eq_zero.mp hc⟩

/-! ## The small-`N` fallback, characterized -/

theorem small_result (c : Bool) (B M : Option Nat) (N : Nat) (h2 : 2 ≤ N) (h1000 : N ≤ 1000) :
    ∃ g, pollard_strassen c N B M = some g ∧ 2 ≤ g ∧ g ≤ N ∧ N % g = 0 ∧
      ∀ d, 2 ≤ d → d < g → N % d ≠ 0 := by
  rw [pollard_strassen_small c N B M h1000]
  have hmem : N ∈ List.range' 2 (N - 1) := by
    rw [List.mem_range'_1]
    omega
  have hpN : (N % N == 0) = true := by simp
  obtain ⟨g, hg⟩ :=
    @find?_some_of_mem (fun i => N % i == 0) (List.range' 2 (N - 1)) N hmem hpN
  have hpg := List.find?_some hg
  have hgmem := List.mem_of_find?_eq_some hg
  rw [List.mem_range'_1] at hgmem
  refine ⟨g, hg, by omega, by omega, by simpa using hpg, ?_⟩
  intro d hd2 hdg hmod
  have hfalse := find?_range'_min _ (N - 1) 2 g hg d hd2 hdg
  rw [hmod] at hfalse
  simp at hfalse

theorem small_none_of_le_one (c : Bool) (B M : Option Nat) (N : Nat) (h : N ≤ 1) :
    pollard_strassen c N B M = none := by
  rw [pollard_strassen_small c N B M (by omega)]
  have hz : N - 1 = 0 := by omega
  rw [hz]
  rfl

/-! ## Arithmetic helpers for the claim statements -/

theorem dvd_semiprime (p q g : Nat) (hp : Nat.Prime p) (hq : Nat.Prime q)
    (hg : g ∣ p * q) : g = 1 ∨ g = p ∨ g = q ∨ g = p * q := by
  by_cases hpg : p ∣ g
  · obtain ⟨t, rfl⟩ := hpg
    have ht : t ∣ q := (Nat.mul_dvd_mul_iff_left hp.pos).mp hg
    rcases (Nat.Prime.eq_one_or_self_of_dvd hq t ht) with h | h
    · subst h
      right; left
      exact Nat.mul_one p
    · subst h
      right; right; right
      rfl
  · have hco : Nat.Coprime g p := ((Nat.Prime.coprime_iff_not_dvd hp).mpr hpg).symm
    have hgq : g ∣ q := hco.dvd_of_dvd_mul_left hg
    rcases (Nat.Prime.eq_one_or_self_of_dvd hq g hgq) with h | h
    · left; exact h
    · right; right; left; exact h

theorem stepSize_some (N : Nat) (B : Option Nat) (m : Nat) :
    stepSize N B (some m) =
      if m = 0 then initialL N B
      else if memLimit N m < initialL N B then memLimit N m else initialL N B := rfl

theorem ceilSqrt_ge (b : Nat) : b ≤ ceilSqrt b * ceilSqrt b := by
  rw [ceilSqrt, isqrt_eq_sqrt]
  by_cases h : Nat.sqrt b * Nat.sqrt b < b
  · rw [if_pos h]
    exact Nat.le_of_lt (Nat.lt_succ_sqrt b)
  · rw [if_neg h]
    omega

theorem ceilSqrt_least (b m : Nat) (h : b ≤ m * m) : ceilSqrt b ≤ m := by
  rw [ceilSqrt, isqrt_eq_sqrt]
  by_cases hlt : Nat.sqrt b * Nat.sqrt b < b
  · rw [if_pos hlt]
    by_contra hcon
    push_neg at hcon
    have hm : m ≤ Nat.sqrt b := by omega
    have hmul : m * m ≤ Nat.sqrt b * Nat.sqrt b := Nat.mul_le_mul hm hm
    omega
  · rw [if_neg hlt]
    by_contra hcon
    push_neg at hcon
    have h1 : m + 1 ≤ Nat.sqrt b := hcon
    have h2 : (m + 1) * (m + 1) ≤ Nat.sqrt b * Nat.sqrt b := Nat.mul_le_mul h1 h1
    have h3 : Nat.sqrt b * Nat.sqrt b ≤ b := Nat.sqrt_le b
    have hexp : (m + 1) * (m + 1) = m * m + 2 * m + 1 := by ring
    omega

theorem sqrt_sqrt_fourth (N : Nat) :
    Nat.sqrt (Nat.sqrt N) ^ 4 ≤ N ∧ N < (Nat.sqrt (Nat.sqrt N) + 1) ^ 4 := by
  constructor
  · have h1 : Nat.sqrt (Nat.sqrt N) * Nat.sqrt (Nat.sqrt N) ≤ Nat.sqrt N :=
      Nat.sqrt_le (Nat.sqrt N)
    have h2 : Nat.sqrt N * Nat.sqrt N ≤ N := Nat.sqrt_le N
    calc Nat.sqrt (Nat.sqrt N) ^ 4
        = (Nat.sqrt (Nat.sqrt N) * Nat.sqrt (Nat.sqrt N)) *
          (Nat.sqrt (Nat.sqrt N) * Nat.sqrt (Nat.sqrt N)) := by ring
      _ ≤ Nat.sqrt N * Nat.sqrt N := Nat.mul_le_mul h1 h1
      _ ≤ N := h2
  · have h1 : Nat.sqrt N < (Nat.sqrt (Nat.sqrt N) + 1) * (Nat.sqrt (Nat.sqrt N) + 1) :=
      Nat.lt_succ_sqrt (Nat.sqrt N)
    have h2 : N < (Nat.sqrt N + 1) * (Nat.sqrt N + 1) := Nat.lt_succ_sqrt N
    have h3 : Nat.sqrt N + 1 ≤ (Nat.sqrt (Nat.sqrt N) + 1) * (Nat.sqrt (Nat.sqrt N) + 1) := h1
    calc N < (Nat.sqrt N + 1) * (Nat.sqrt N + 1) := h2
      _ ≤ ((Nat.sqrt (Nat.sqrt N) + 1) * (Nat.sqrt (Nat.sqrt N) + 1)) *
          ((Nat.sqrt (Nat.sqrt N) + 1) * (Nat.sqrt (Nat.sqrt N) + 1)) := Nat.mul_le_mul h3 h3
      _ = (Nat.sqrt (Nat.sqrt N) + 1) ^ 4 := by ring

theorem sum_map_two : ∀ (l : List Nat), (l.map fun _ => (2 : Nat)).sum = 2 * l.length := by
  intro l
  induction l with
  | nil => rfl
  | cons a t ih =>
    rw [List.map_cons, List.sum_cons, ih, List.length_cons]
    ring

/-! ## The claims -/

/-- C1: for every `N > 1000` with a nontrivial factor `p ≤ L²`, where
`L = floor(N^(1/4)) + 1` is the step size selected with no bound and no
memory clamp, the pipeline returns some `g` with `1 < g < N` and
`N mod g = 0`; when `N = p·q` with distinct primes `p, q` both inside the
same interval `[kL+1, kL+L]` the aggregate GCD degenerates to `N` and the
backtracking scan still recovers a nontrivial factor; and for `N = 3837523`
the returned factor is one of 1093 and 3511. -/
theorem pollard_strassen_finds_small_factor :
    (∀ N p : Nat, 1000 < N → 1 < p → p < N → p ∣ N →
      p ≤ stepSize N none none ^ 2 →
      ∃ g, pollard_strassen true N none none = some g ∧ 1 < g ∧ g < N ∧ N % g = 0)
    ∧ (∀ N p q k j1 j2 : Nat, 1000 < N → N = p * q → p ≠ q →
        Nat.Prime p → Nat.Prime q → k < stepSize N none none →
        j1 ∈ List.range' 1 (stepSize N none none) →
        j2 ∈ List.range' 1 (stepSize N none none) →
        k * stepSize N none none + j1 = p → k * stepSize N none none + j2 = q →
        Nat.gcd (accumulatedOf N (stepSize N none none)) N = N ∧
        ∃ g, pollard_strassen true N none none = some g ∧ 1 < g ∧ g < N ∧ N % g = 0)
    ∧ (∃ g, pollard_strassen true 3837523 none none = some g ∧ (g = 1093 ∨ g = 3511)) := by
  refine ⟨?_, ?_, ?_⟩
  · intro N p h1 h2 h3 h4 h5
    apply pipeline_finds N p h1 h2 h3 h4
    rw [pow_two] at h5
    exact h5
  · intro N p q k j1 j2 hN hNpq hpq hp hq hk hj1 hj2 hkj1 hkj2
    haveI : NeZero N := ⟨by omega⟩
    have hL1 : 1 ≤ stepSize N none none := by
      rw [stepSize_default]
      exact defaultL_pos N
    obtain ⟨r, hr⟩ := product_tree_isSome (leavesFor N (stepSize N none none))
      (leavesFor_ne_nil N _ hL1)
    have hpdvd : p ∣ ((List.range' 1 (stepSize N none none)).map
        fun i => k * stepSize N none none + i).prod :=
      List.dvd_prod (List.mem_map.mpr ⟨j1, hj1, hkj1⟩)
    have hqdvd : q ∣ ((List.range' 1 (stepSize N none none)).map
        fun i => k * stepSize N none none + i).prod :=
      List.dvd_prod (List.mem_map.mpr ⟨j2, hj2, hkj2⟩)
    have hco : Nat.Coprime p q := (Nat.coprime_primes hp hq).mpr hpq
    have hNdvd : N ∣ ((List.range' 1 (stepSize N none none)).map
        fun i => k * stepSize N none none + i).prod := by
      have hmuldvd := Nat.Coprime.mul_dvd_of_dvd_of_dvd hco hpdvd hqdvd
      rwa [← hNpq] at hmuldvd
    have hNbig : N ∣ ((List.range (stepSize N none none)).map fun k2 =>
        ((List.range' 1 (stepSize N none none)).map
          fun i => k2 * stepSize N none none + i).prod).prod :=
      dvd_trans hNdvd (List.dvd_prod (List.mem_map.mpr ⟨k, List.mem_range.mpr hk, rfl⟩))
    have hacc0 : accumulatedOf N (stepSize N none none) = 0 := by
      rw [accumulatedOf_mod N _ hL1 r hr]
      exact Nat.dvd_iff_mod_eq_zero.mp hNbig
    have hgcd : Nat.gcd (accumulatedOf N (stepSize N none none)) N = N := by
      rw [hacc0]
      exact Nat.gcd_zero_left N
    refine ⟨hgcd, ?_⟩
    have hp1 : 1 < p := hp.one_lt
    have hq1 : 1 < q := hq.one_lt
    have hpN : p < N := by
      have h2q : 2 ≤ q := hq1
      have hmul : p * 2 ≤ p * q := Nat.mul_le_mul_left p h2q
      omega
    have hpd : p ∣ N := ⟨q, hNpq⟩
    have hpL2 : p ≤ stepSize N none none * stepSize N none none := by
      have hj1le : j1 ≤ stepSize N none none := by
        rw [List.mem_range'_1] at hj1
        omega
      have h1 : k + 1 ≤ stepSize N none none := hk
      have h2 : (k + 1) * stepSize N none none ≤
          stepSize N none none * stepSize N none none := Nat.mul_le_mul_right _ h1
      have h3 : (k + 1) * stepSize N none none =
          k * stepSize N none none + stepSize N none none := by ring
      omega
    exact pipeline_finds N p hN hp1 hpN hpd hpL2
  · obtain ⟨g, hg, hg1, hgN, hmod⟩ :=
      pipeline_finds 3837523 1093 (by norm_num) (by norm_num) (by norm_num)
        (by decide) (by decide)
    refine ⟨g, hg, ?_⟩
    have hdvd : g ∣ 3837523 := Nat.dvd_of_mod_eq_zero hmod
    have hfac : (3837523 : Nat) = 1093 * 3511 := by norm_num
    rw [hfac] at hdvd
    rcases dvd_semiprime 1093 3511 g (by norm_num) (by norm_num) hdvd with h | h | h | h
    · omega
    · exact Or.inl h
    · exact Or.inr h
    · exfalso
      have hgval : g = 3837523 := by rw [h]
      omega

set_option maxRecDepth 8000 in
set_option maxHeartbeats 1600000 in
theorem pollard_strassen_finds_small_factor_witness :
    ((1000 < 3837523 ∧ 1 < 1093 ∧ 1093 < 3837523 ∧ 1093 ∣ 3837523 ∧
      1093 ≤ stepSize 3837523 none none ^ 2) ∧
    (∃ g, pollard_strassen true 3837523 none none = some g ∧
      1 < g ∧ g < 3837523 ∧ 3837523 % g = 0)) ∧
    (Nat.gcd (accumulatedOf 1022117 (stepSize 1022117 none none)) 1022117 = 1022117 ∧
      ∃ g, pollard_strassen true 1022117 none none = some g ∧
        1 < g ∧ g < 1022117 ∧ 1022117 % g = 0) :=
  ⟨⟨⟨by decide, by decide, by decide, by decide, by decide⟩,
    pollard_strassen_finds_small_factor.1 3837523 1093 (by decide) (by decide)
      (by decide) (by decide) (by decide)⟩,
   pollard_strassen_finds_small_factor.2.1 1022117 1009 1013 31 17 21 (by decide)
     (by decide) (by decide) (by decide) (by decide) (by decide) (by decide)
     (by decide) (by decide) (by decide)⟩

/-- C3 (amended): for `2 ≤ N ≤ 1000` the fallback returns the first divisor
`g` of `N` with `2 ≤ g ≤ N` (so for prime `N` it returns `N` itself and is
not null); the result is null iff `N ≤ 1`.  The original "null iff `N` prime
or `N ≤ 1`" fails: primes yield `some N`, never null. -/
theorem small_fallback_first_divisor :
    (∀ (c : Bool) (B M : Option Nat) (N : Nat), 2 ≤ N → N ≤ 1000 →
      ∃ g, pollard_strassen c N B M = some g ∧ 2 ≤ g ∧ g ≤ N ∧ N % g = 0 ∧
        ∀ d, 2 ≤ d → d < g → N % d ≠ 0)
    ∧ (∀ (c : Bool) (B M : Option Nat) (N : Nat), N ≤ 1000 →
        (pollard_strassen c N B M = none ↔ N ≤ 1)) := by
  refine ⟨fun c B M N h2 h1000 => small_result c B M N h2 h1000, ?_⟩
  intro c B M N h1000
  constructor
  · intro hnone
    by_contra hcon
    push_neg at hcon
    obtain ⟨g, hg, _⟩ := small_result c B M N (by omega) h1000
    rw [hg] at hnone
    exact absurd hnone (by simp)
  · intro hle
    exact small_none_of_le_one c B M N hle

theorem small_fallback_first_divisor_witness :
    (∃ g, pollard_strassen true 15 none none = some g ∧ 2 ≤ g ∧ g ≤ 15 ∧ 15 % g = 0 ∧
      ∀ d, 2 ≤ d → d < g → 15 % d ≠ 0) ∧
    (pollard_strassen true 1 none none = none ↔ (1 : Nat) ≤ 1) :=
  ⟨small_fallback_first_divisor.1 true none none 15 (by decide) (by decide),
   small_fallback_first_divisor.2 true none none 1 (by decide)⟩

theorem small_fallback_nonnull_on_prime :
    pollard_strassen true 2 none none = some 2 ∧ Nat.Prime 2 := by
  constructor
  · decide
  · norm_num

/-- C4: when the aggregate gcd saturates to `N`, the pipeline's result is
exactly the spec-worded extractor: walk residues in ascending index order,
return the first gcd strictly between 1 and `N`, scan interval `k`'s
candidates `k*L + j`, `j = 1 .. L`, in order when the gcd is 0 or `N`, and
return null when nothing qualifies.  The first conjunct states the loop
equivalence in general, the second instantiates it inside the pipeline. -/
theorem degenerate_gcd_backtracking_spec :
    (∀ (N L : Nat) (vs : List Nat), backtrack N L vs 0 = extractorSpec N L vs)
    ∧ (∀ (N : Nat) (B M : Option Nat), 1000 < N →
        Nat.gcd (accumulatedOf N (stepSize N B M)) N = N →
        pollard_strassen true N B M =
          extractorSpec N (stepSize N B M)
            ((valuesVec N (stepSize N B M)).map ZMod.val)) := by
  constructor
  · exact backtrack_eq_extractorSpec
  · intro N B M hN hgcd
    have htree : product_tree (leavesFor N (stepSize N B M)) ≠ none := by
      intro hcon
      have hv : valuesVec N (stepSize N B M) = [] := by
        unfold valuesVec
        rw [hcon]
      have hacc : accumulatedOf N (stepSize N B M) = 1 := by
        rw [accumulatedOf, hv]
        rfl
      rw [hacc, Nat.gcd_one_left] at hgcd
      omega
    obtain ⟨r, hr⟩ := Option.ne_none_iff_exists'.mp htree
    rw [pollard_strassen_big N B M (by omega) r hr]
    rw [if_neg (by rw [hgcd]; simp), if_pos hgcd]
    exact backtrack_eq_extractorSpec N _ _

theorem degenerate_gcd_backtracking_spec_witness :
    (1000 < 1333 ∧ Nat.gcd (accumulatedOf 1333 (stepSize 1333 none none)) 1333 = 1333) ∧
    pollard_strassen true 1333 none none =
      extractorSpec 1333 (stepSize 1333 none none)
        ((valuesVec 1333 (stepSize 1333 none none)).map ZMod.val) :=
  ⟨⟨by decide, by decide⟩,
   degenerate_gcd_backtracking_spec.2 1333 none none (by decide) (by decide)⟩

/-- C5: the claim `L ≥ 1` always holds is right as intent but the code
violates it: with no bound and a memory budget of `25 MiB + 1 byte` the
clamp computes `L_mem_limit = 0` and the final step size is `0`, after which
the Python crashes on `poly.degree()` (`product_tree([])` returns `None`). -/
theorem stepSize_zero_on_small_budget :
    stepSize 1001 none (some 26214401) = 0 := by decide

/-- C6 (amended): when a nonzero bound `b` is given the pre-clamp step size
is `ceil(sqrt(b))` (the least `L` with `b ≤ L²`); otherwise it is
`floor(N^(1/4)) + 1` via two exact integer square roots.  The original claim
fails for a given bound of `0`, which Python truthiness treats as absent. -/
theorem initial_stepSize_rule :
    (∀ N b : Nat, b ≠ 0 →
      initialL N (some b) = ceilSqrt b ∧ b ≤ ceilSqrt b * ceilSqrt b ∧
      ∀ m, b ≤ m * m → ceilSqrt b ≤ m)
    ∧ (∀ N : Nat, initialL N none = Nat.sqrt (Nat.sqrt N) + 1 ∧
        Nat.sqrt (Nat.sqrt N) ^ 4 ≤ N ∧ N < (Nat.sqrt (Nat.sqrt N) + 1) ^ 4) := by
  constructor
  · intro N b hb
    refine ⟨?_, ceilSqrt_ge b, fun m hm => ceilSqrt_least b m hm⟩
    have hunfold : initialL N (some b) = if b = 0 then defaultL N else ceilSqrt b := rfl
    rw [hunfold, if_neg hb]
  · intro N
    refine ⟨?_, (sqrt_sqrt_fourth N).1, (sqrt_sqrt_fourth N).2⟩
    have hunfold : initialL N none = defaultL N := rfl
    rw [hunfold, defaultL_eq_sqrt]

theorem initial_stepSize_rule_witness :
    (initialL 2000 (some 9) = ceilSqrt 9 ∧ 9 ≤ ceilSqrt 9 * ceilSqrt 9 ∧
      ∀ m, 9 ≤ m * m → ceilSqrt 9 ≤ m) ∧
    (initialL 2000 none = Nat.sqrt (Nat.sqrt 2000) + 1 ∧
      Nat.sqrt (Nat.sqrt 2000) ^ 4 ≤ 2000 ∧ 2000 < (Nat.sqrt (Nat.sqrt 2000) + 1) ^ 4) :=
  ⟨initial_stepSize_rule.1 2000 9 (by decide), initial_stepSize_rule.2 2000⟩

theorem initial_stepSize_zero_bound :
    initialL 2000 (some 0) = 7 ∧ ceilSqrt 0 = 0 := by
  constructor
  · decide
  · decide

/-- C7: on every nonempty leaf list the balanced product tree returns the
naive left-to-right product of the leaves; for the program's leaves
`(x+1) .. (x+L)` over `Z/N` the root equals that product, has degree `L`
(coefficient-list length `L + 1`), and evaluates at any integer `x` to
`(x+1)(x+2)...(x+L) mod N`. -/
theorem product_tree_is_naive_product :
    (∀ (R : Type) [CommRing R] (l : List (List R)), l ≠ [] →
      product_tree l = some (naiveProd l))
    ∧ (∀ N L : Nat, 0 < N → 1 ≤ L →
        ∃ r, product_tree (leavesFor N L) = some r ∧
          r = naiveProd (leavesFor N L) ∧
          r.length = L + 1 ∧
          ∀ x : Nat, (polyEval r ((x : Nat) : ZMod N)).val =
            (((List.range' 1 L).map fun i => x + i).prod) % N) := by
  constructor
  · intro R hR l hne
    exact product_tree_eq_naiveProd l hne
  · intro N L hN hL
    haveI : NeZero N := ⟨by omega⟩
    have htree := product_tree_eq_naiveProd (leavesFor N L) (leavesFor_ne_nil N L hL)
    refine ⟨naiveProd (leavesFor N L), htree, rfl, ?_, ?_⟩
    · have hq : ∀ q ∈ leavesFor N L, q ≠ [] := by
        intro q hq
        rw [leavesFor, List.mem_map] at hq
        obtain ⟨i, _, rfl⟩ := hq
        simp
      have hlen := len_naiveProd (leavesFor N L) (leavesFor_ne_nil N L hL) hq
      have hsum : ((leavesFor N L).map List.length).sum = 2 * L := by
        rw [leavesFor, List.map_map]
        have hconst : (List.length ∘ fun i : Nat => [((i : Nat) : ZMod N), 1]) =
            fun _ : Nat => (2 : Nat) := by
          funext i
          rfl
        rw [hconst, sum_map_two]
        simp
      rw [leavesFor_length, hsum] at hlen
      omega
    · intro x
      rw [eval_root_natCast (naiveProd (leavesFor N L)) htree x, ZMod.val_natCast]

theorem product_tree_is_naive_product_witness :
    (leavesFor 97 5 ≠ [] ∧
      product_tree (leavesFor 97 5) = some (naiveProd (leavesFor 97 5))) ∧
    (∃ r, product_tree (leavesFor 97 5) = some r ∧
      r = naiveProd (leavesFor 97 5) ∧
      r.length = 5 + 1 ∧
      ∀ x : Nat, (polyEval r ((x : Nat) : ZMod 97)).val =
        (((List.range' 1 5).map fun i => x + i).prod) % 97) :=
  ⟨⟨by decide, product_tree_is_naive_product.1 (ZMod 97) (leavesFor 97 5) (by decide)⟩,
   product_tree_is_naive_product.2 97 5 (by decide) (by decide)⟩

/-- C8 (amended): when a nonzero memory budget `m` is supplied, the final
step size never exceeds the computed limit: at most `1000` when
`m ≤ 25*1024*1024`, and at most
`(m - 25*1024*1024) / (8 * (256 + 4 * (bit_length(N) / 8)))` otherwise.  The
original claim fails for a supplied budget of `0`, which Python truthiness
treats as absent (no clamping at all). -/
theorem memory_clamp_limits_stepSize :
    ∀ (N : Nat) (B : Option Nat) (m : Nat), m ≠ 0 →
      (m ≤ FIXED_OVERHEAD → stepSize N B (some m) ≤ 1000) ∧
      (FIXED_OVERHEAD < m →
        stepSize N B (some m) ≤
          (m - FIXED_OVERHEAD) / ((256 + 4 * (bitLen N / 8)) * 8)) := by
  intro N B m hm
  rw [stepSize_some, if_neg hm]
  constructor
  · intro hle
    have hlim : memLimit N m = 1000 := by rw [memLimit, if_pos hle]
    by_cases hc : memLimit N m < initialL N B
    · rw [if_pos hc]
      omega
    · rw [if_neg hc]
      omega
  · intro hlt
    have hlim : memLimit N m =
        (m - FIXED_OVERHEAD) / ((256 + 4 * (bitLen N / 8)) * 8) := by
      rw [memLimit, if_neg (by omega)]
    by_cases hc : memLimit N m < initialL N B
    · rw [if_pos hc]
      omega
    · rw [if_neg hc]
      omega

theorem memory_clamp_limits_stepSize_witness :
    stepSize 1001 none (some 26214400) ≤ 1000 ∧
    stepSize 1001 none (some 27254400) ≤
      (27254400 - FIXED_OVERHEAD) / ((256 + 4 * (bitLen 1001 / 8)) * 8) :=
  ⟨(memory_clamp_limits_stepSize 1001 none 26214400 (by decide)).1 (by decide),
   (memory_clamp_limits_stepSize 1001 none 27254400 (by decide)).2 (by decide)⟩

theorem memory_clamp_zero_budget :
    stepSize 1001 (some 1000001) (some 0) = 1001 ∧ ¬(1001 ≤ 1000) := by
  constructor
  · decide
  · decide

/-- C9: for `N > 1000`, if the construction of the modular polynomial
context fails (the engine call raises), the pipeline returns a null result
rather than propagating the exception. -/
theorem context_failure_yields_none :
    ∀ (N : Nat) (B M : Option Nat), 1000 < N →
      pollard_strassen false N B M = none := by
  intro N B M hN
  rw [pollard_strassen, if_neg (by omega), if_pos rfl]

theorem context_failure_yields_none_witness :
    1000 < 1001 ∧ pollard_strassen false 1001 none none = none :=
  ⟨by decide, context_failure_yields_none 1001 none none (by decide)⟩

/-- C10: the from-import in `src/main.py` line 6 requests
`get_memory_cost_params`, a name the `pollard_strassen` module does not
bind, so the import fails and no CLI invocation reaches the pipeline. -/
theorem main_import_fails : mainImportSucceeds = false := by decide
